import Mathlib

set_option maxHeartbeats 1000000

/-!
Shallow embedding of `src/main.py`: an in-memory key-value store with a
value→count reverse index and snapshot-based transactions, driven by a
line-oriented command parser.

Python dicts are modelled as insertion-ordered association lists
(`List (String × α)`); `defaultdict(int)` reads absent keys as `0`.
The snapshot stack `_history` is a list with `append` at the end and
`pop` from the end, exactly as Python's `list.append` / `list.pop`.
-/

/-- `d.get(k)`: first (and, for dict-built lists, only) entry with key `k`. -/
def dictGet {α : Type} (d : List (String × α)) (k : String) : Option α :=
  match d with
  | [] => none
  | (k1, v) :: rest => if k1 = k then some v else dictGet rest k

/-- `d[k] = v`: replace the value for `k` in place, else append a new entry
(Python dicts preserve insertion order and update in place). -/
def dictSet {α : Type} (d : List (String × α)) (k : String) (v : α) : List (String × α) :=
  match d with
  | [] => [(k, v)]
  | (k1, v1) :: rest => if k1 = k then (k, v) :: rest else (k1, v1) :: dictSet rest k v

/-- `d.pop(k)`: remove the entry with key `k`. -/
def dictPop {α : Type} (d : List (String × α)) (k : String) : List (String × α) :=
  match d with
  | [] => []
  | (k1, v1) :: rest => if k1 = k then rest else (k1, v1) :: dictPop rest k

/-- `self._counts.get(v, 0)`: a `defaultdict(int)` read with default `0`. -/
def countsGet (c : List (String × Int)) (v : String) : Int :=
  (dictGet c v).getD 0

/-- `self._counts[v] += d` on a `defaultdict(int)`: read (default 0), add, store. -/
def countsAdd (c : List (String × Int)) (v : String) (d : Int) : List (String × Int) :=
  dictSet c v (countsGet c v + d)

/-- The state of `InMemoryDB`: `self._db`, `self._counts`, `self._history`. -/
structure InMemoryDB where
  _db : List (String × String)
  _counts : List (String × Int)
  _history : List (List (String × String) × List (String × Int))
  deriving DecidableEq

/-- `InMemoryDB.__init__`: empty mapping, empty counts, empty history. -/
def InMemoryDB.fresh : InMemoryDB := ⟨[], [], []⟩

/-- `_save_state`: append a deep copy of `(self._db, self._counts)` to history. -/
def InMemoryDB.saveState (s : InMemoryDB) : InMemoryDB :=
  { s with _history := s._history ++ [(s._db, s._counts)] }

/-- `set(key, value)`: save state; `if old_value:` (Python truthiness — present
AND non-empty) decrement `_counts[old_value]`; then `_db[key] = value` and
`_counts[value] += 1`. -/
def InMemoryDB.set (s : InMemoryDB) (key value : String) : InMemoryDB :=
  let s1 := s.saveState
  let c1 := match dictGet s1._db key with
    | some old_value =>
        if old_value = "" then s1._counts else countsAdd s1._counts old_value (-1)
    | none => s1._counts
  { s1 with _db := dictSet s1._db key value, _counts := countsAdd c1 value 1 }

/-- `get(key)`: `self._db.get(key)`. -/
def InMemoryDB.get (s : InMemoryDB) (key : String) : Option String :=
  dictGet s._db key

/-- `unset(key)`: only `if key in self._db` — save state, pop the key,
decrement `_counts[old_value]`. -/
def InMemoryDB.unset (s : InMemoryDB) (key : String) : InMemoryDB :=
  match dictGet s._db key with
  | none => s
  | some old_value =>
    let s1 := s.saveState
    { s1 with _db := dictPop s1._db key, _counts := countsAdd s1._counts old_value (-1) }

/-- `counts(value)`: prints `self._counts.get(value, 0)`; we return the integer printed. -/
def InMemoryDB.counts (s : InMemoryDB) (value : String) : Int :=
  countsGet s._counts value

/-- `find(value)`: keys of entries whose value equals `value`, printed
space-joined after sorting, or `"NULL"` when there are none. -/
def InMemoryDB.find (s : InMemoryDB) (value : String) : String :=
  let keys := (s._db.filter (fun p => p.2 == value)).map Prod.fst
  if keys.isEmpty then "NULL" else " ".intercalate (keys.mergeSort (fun a b => a ≤ b))

/-- `begin()`: unconditionally append a deep copy of the current state to history. -/
def InMemoryDB.begin (s : InMemoryDB) : InMemoryDB :=
  { s with _history := s._history ++ [(s._db, s._counts)] }

/-- `rollback()`: if history is empty print `NO TRANSACTION`, else pop the
last snapshot and make it the current state. Returns the printed diagnostic. -/
def InMemoryDB.rollback (s : InMemoryDB) : InMemoryDB × Option String :=
  match s._history.getLast? with
  | none => (s, some "NO TRANSACTION")
  | some (d, c) => ({ _db := d, _counts := c, _history := s._history.dropLast }, none)

/-- `commit()`: if history is empty print `NO TRANSACTION`, else clear it. -/
def InMemoryDB.commit (s : InMemoryDB) : InMemoryDB × Option String :=
  if s._history.isEmpty then (s, some "NO TRANSACTION") else ({ s with _history := [] }, none)

/-- The state-mutating store operations (the pure reads `get`/`counts`/`find`
do not change the state). -/
inductive Op where
  | set (key value : String)
  | unset (key : String)
  | begin
  | rollback
  | commit
  deriving DecidableEq

def applyOp (s : InMemoryDB) : Op → InMemoryDB
  | .set k v => s.set k v
  | .unset k => s.unset k
  | .begin => s.begin
  | .rollback => s.rollback.1
  | .commit => s.commit.1

/-- Run a sequence of operations from a fresh store. -/
def run (ops : List Op) : InMemoryDB :=
  ops.foldl applyOp InMemoryDB.fresh

/-- The spec's stated preconditions: `set` is called with non-empty key and
value strings (the parser guarantees well-formed arguments). -/
def Op.valid : Op → Prop
  | .set k v => k ≠ "" ∧ v ≠ ""
  | _ => True

instance : DecidablePred Op.valid := fun op =>
  match op with
  | .set k v => inferInstanceAs (Decidable (k ≠ "" ∧ v ≠ ""))
  | .unset _ => inferInstanceAs (Decidable True)
  | .begin => inferInstanceAs (Decidable True)
  | .rollback => inferInstanceAs (Decidable True)
  | .commit => inferInstanceAs (Decidable True)

/-- Number of mapping entries holding value `v`. -/
def cntVal (db : List (String × String)) (v : String) : Nat :=
  db.countP (fun p => p.2 == v)

/-! ### Association-list lemmas -/

theorem dictGet_dictSet {α : Type} (d : List (String × α)) (k w : String) (v : α) :
    dictGet (dictSet d k v) w = if k = w then some v else dictGet d w := by
  induction d with
  | nil => by_cases h : k = w <;> simp [dictGet, dictSet, h]
  | cons p rest ih =>
    obtain ⟨k2, v2⟩ := p
    by_cases h2 : k2 = k
    · subst h2
      by_cases hw : k2 = w <;> simp [dictSet, dictGet, hw]
    · simp only [dictSet, if_neg h2, dictGet]
      rw [ih]
      by_cases hw : k2 = w
      · have hkw : ¬ k = w := fun hk => h2 (hw.trans hk.symm)
        simp [hw, hkw]
      · simp [hw]

theorem countsGet_countsAdd (c : List (String × Int)) (v : String) (d : Int) (w : String) :
    countsGet (countsAdd c v d) w = countsGet c w + if v = w then d else 0 := by
  unfold countsAdd countsGet
  rw [dictGet_dictSet]
  by_cases h : v = w
  · subst h
    simp [countsGet]
  · simp [h]

theorem dictSet_eq_append {α : Type} {d : List (String × α)} {k : String} (v : α)
    (h : dictGet d k = none) : dictSet d k v = d ++ [(k, v)] := by
  induction d with
  | nil => simp [dictSet]
  | cons p rest ih =>
    obtain ⟨k2, v2⟩ := p
    by_cases h2 : k2 = k
    · simp [dictGet, h2] at h
    · simp only [dictGet, if_neg h2] at h
      simp [dictSet, h2, ih h]

theorem keys_dictSet_of_mem {α : Type} {d : List (String × α)} {k : String} {ov : α} (v : α)
    (h : dictGet d k = some ov) : (dictSet d k v).map Prod.fst = d.map Prod.fst := by
  induction d with
  | nil => simp [dictGet] at h
  | cons p rest ih =>
    obtain ⟨k2, v2⟩ := p
    by_cases h2 : k2 = k
    · simp [dictSet, h2]
    · simp only [dictGet, if_neg h2] at h
      simp [dictSet, h2, ih h]

theorem dictPop_sublist {α : Type} (d : List (String × α)) (k : String) :
    (dictPop d k).Sublist d := by
  induction d with
  | nil => simp [dictPop]
  | cons p rest ih =>
    obtain ⟨k2, v2⟩ := p
    by_cases h2 : k2 = k
    · simpa [dictPop, h2] using List.sublist_cons_self (k2, v2) rest
    · simpa [dictPop, h2] using ih.cons₂ (k2, v2)

theorem dictGet_mem {α : Type} {d : List (String × α)} {k : String} {v : α}
    (h : dictGet d k = some v) : (k, v) ∈ d := by
  induction d with
  | nil => simp [dictGet] at h
  | cons p rest ih =>
    obtain ⟨k2, v2⟩ := p
    by_cases h2 : k2 = k
    · subst h2
      simp [dictGet] at h
      simp [h]
    · simp only [dictGet, if_neg h2] at h
      simp [ih h]

theorem cntVal_dictSet_none {d : List (String × String)} {k : String} (v : String)
    (h : dictGet d k = none) (w : String) :
    cntVal (dictSet d k v) w = cntVal d w + (if v = w then 1 else 0) := by
  rw [dictSet_eq_append v h]
  unfold cntVal
  rw [List.countP_append]
  simp [List.countP_cons, beq_iff_eq]

theorem cntVal_dictSet_some {d : List (String × String)} {k : String} {ov : String} (v : String)
    (h : dictGet d k = some ov) (w : String) :
    cntVal (dictSet d k v) w + (if ov = w then 1 else 0)
      = cntVal d w + (if v = w then 1 else 0) := by
  induction d with
  | nil => simp [dictGet] at h
  | cons p rest ih =>
    obtain ⟨k2, v2⟩ := p
    by_cases h2 : k2 = k
    · subst h2
      simp [dictGet] at h
      subst ov
      simp only [dictSet, if_pos rfl]
      unfold cntVal
      simp only [List.countP_cons, beq_iff_eq]
      by_cases hv : v = w <;> by_cases hov : v2 = w <;> simp [hv, hov] <;> omega
    · simp only [dictGet, if_neg h2] at h
      simp only [dictSet, if_neg h2]
      unfold cntVal at ih ⊢
      simp only [List.countP_cons, beq_iff_eq]
      have h3 := ih h
      by_cases hov2 : v2 = w <;> simp_all <;> omega

theorem cntVal_dictPop {d : List (String × String)} {k : String} {ov : String}
    (h : dictGet d k = some ov) (w : String) :
    cntVal (dictPop d k) w + (if ov = w then 1 else 0) = cntVal d w := by
  induction d with
  | nil => simp [dictGet] at h
  | cons p rest ih =>
    obtain ⟨k2, v2⟩ := p
    by_cases h2 : k2 = k
    · subst h2
      simp [dictGet] at h
      subst ov
      simp only [dictPop, if_pos rfl]
      unfold cntVal
      simp only [List.countP_cons, beq_iff_eq]
      by_cases hov : v2 = w <;> simp [hov] <;> omega
    · simp only [dictGet, if_neg h2] at h
      simp only [dictPop, if_neg h2]
      unfold cntVal at ih ⊢
      simp only [List.countP_cons, beq_iff_eq]
      have h3 := ih h
      by_cases hov : v2 = w <;> simp_all <;> omega

theorem mem_dictSet {α : Type} {d : List (String × α)} {k : String} {v : α} {p : String × α}
    (h : p ∈ dictSet d k v) : p ∈ d ∨ p = (k, v) := by
  induction d with
  | nil => simpa [dictSet] using h
  | cons q rest ih =>
    obtain ⟨k2, v2⟩ := q
    by_cases h2 : k2 = k
    · simp only [dictSet, if_pos h2] at h
      rcases List.mem_cons.mp h with h3 | h3
      · exact Or.inr h3
      · exact Or.inl (List.mem_cons_of_mem _ h3)
    · simp only [dictSet, if_neg h2] at h
      rcases List.mem_cons.mp h with h3 | h3
      · exact Or.inl (h3 ▸ List.mem_cons_self _ _)
      · rcases ih h3 with h4 | h4
        · exact Or.inl (List.mem_cons_of_mem _ h4)
        · exact Or.inr h4

theorem dictGet_eq_none_iff {α : Type} (d : List (String × α)) (k : String) :
    dictGet d k = none ↔ k ∉ d.map Prod.fst := by
  induction d with
  | nil => simp [dictGet]
  | cons p rest ih =>
    obtain ⟨k2, v2⟩ := p
    by_cases h2 : k2 = k
    · subst h2
      simp [dictGet]
    · have h4 : ¬ k = k2 := fun h5 => h2 h5.symm
      simp [dictGet, h2, ih, h4]

/-! ### The index-consistency invariant (spec Invariant I1) -/

/-- A (mapping, counts) pair is consistent: the mapping's keys are unique,
every stored value is a non-empty string, and every count equals the number
of mapping entries holding that value. -/
def entryConsistent (db : List (String × String)) (c : List (String × Int)) : Prop :=
  (db.map Prod.fst).Nodup ∧ (∀ p ∈ db, p.2 ≠ "") ∧ ∀ v, countsGet c v = (cntVal db v : Int)

/-- The current state and every snapshot on the stack are consistent. -/
def Consistent (s : InMemoryDB) : Prop :=
  entryConsistent s._db s._counts ∧ ∀ e ∈ s._history, entryConsistent e.1 e.2

theorem entryConsistent_set {db : List (String × String)} {c : List (String × Int)}
    (hc : entryConsistent db c) {k v : String} (hv : v ≠ "") :
    entryConsistent (dictSet db k v)
      (countsAdd (match dictGet db k with
        | some ov => if ov = "" then c else countsAdd c ov (-1)
        | none => c) v 1) := by
  obtain ⟨hnd, hne, hcnt⟩ := hc
  cases hget : dictGet db k with
  | none =>
    refine ⟨?_, ?_, ?_⟩
    · rw [dictSet_eq_append v hget, List.map_append]
      simp only [List.nodup_append, List.map_cons, List.map_nil]
      refine ⟨hnd, List.nodup_singleton k, fun a ha hb => ?_⟩
      simp only [List.mem_singleton] at hb
      exact ((dictGet_eq_none_iff db k).mp hget) (hb ▸ ha)
    · intro p hp
      rcases mem_dictSet hp with h | h
      · exact hne p h
      · rw [h]; exact hv
    · intro w
      rw [countsGet_countsAdd, hcnt w, cntVal_dictSet_none v hget w]
      by_cases hvw : v = w <;> simp [hvw] <;> push_cast <;> omega
  | some ov =>
    have hovne : ov ≠ "" := hne _ (dictGet_mem hget)
    refine ⟨?_, ?_, ?_⟩
    · rw [keys_dictSet_of_mem v hget]; exact hnd
    · intro p hp
      rcases mem_dictSet hp with h | h
      · exact hne p h
      · rw [h]; exact hv
    · intro w
      show countsGet (countsAdd (if ov = "" then c else countsAdd c ov (-1)) v 1) w
        = (cntVal (dictSet db k v) w : Int)
      rw [if_neg hovne, countsGet_countsAdd, countsGet_countsAdd, hcnt w]
      have h5 := cntVal_dictSet_some v hget w
      by_cases h6 : ov = w <;> by_cases h7 : v = w <;>
        simp only [h6, h7, if_pos, if_neg, if_true, if_false] <;> simp_all <;> omega

theorem entryConsistent_unset {db : List (String × String)} {c : List (String × Int)}
    (hc : entryConsistent db c) {k ov : String} (hget : dictGet db k = some ov) :
    entryConsistent (dictPop db k) (countsAdd c ov (-1)) := by
  obtain ⟨hnd, hne, hcnt⟩ := hc
  refine ⟨?_, ?_, ?_⟩
  · exact List.Nodup.sublist ((dictPop_sublist db k).map Prod.fst) hnd
  · intro p hp
    exact hne p ((dictPop_sublist db k).subset hp)
  · intro w
    rw [countsGet_countsAdd, hcnt w]
    have h5 := cntVal_dictPop hget w
    by_cases h6 : ov = w <;> simp_all <;> omega

theorem consistent_applyOp {s : InMemoryDB} (hs : Consistent s) {op : Op} (hop : op.valid) :
    Consistent (applyOp s op) := by
  obtain ⟨hcur, hhist⟩ := hs
  cases op with
  | set k v =>
    obtain ⟨hk, hv⟩ := hop
    refine ⟨?_, ?_⟩
    · simpa [applyOp, InMemoryDB.set, InMemoryDB.saveState] using entryConsistent_set hcur hv
    · intro e he
      simp only [applyOp, InMemoryDB.set, InMemoryDB.saveState, List.mem_append,
        List.mem_singleton] at he
      rcases he with he | he
      · exact hhist e he
      · rw [he]; exact hcur
  | unset k =>
    cases hget : dictGet s._db k with
    | none => simpa [applyOp, InMemoryDB.unset, hget] using ⟨hcur, hhist⟩
    | some ov =>
      refine ⟨?_, ?_⟩
      · simpa [applyOp, InMemoryDB.unset, hget, InMemoryDB.saveState] using
          entryConsistent_unset hcur hget
      · intro e he
        simp only [applyOp, InMemoryDB.unset, hget, InMemoryDB.saveState, List.mem_append,
          List.mem_singleton] at he
        rcases he with he | he
        · exact hhist e he
        · rw [he]; exact hcur
  | begin =>
    refine ⟨hcur, ?_⟩
    intro e he
    simp only [applyOp, InMemoryDB.begin, List.mem_append, List.mem_singleton] at he
    rcases he with he | he
    · exact hhist e he
    · rw [he]; exact hcur
  | rollback =>
    cases hlast : s._history.getLast? with
    | none => simpa [applyOp, InMemoryDB.rollback, hlast] using ⟨hcur, hhist⟩
    | some e =>
      obtain ⟨d, c⟩ := e
      have hmem : (d, c) ∈ s._history := List.mem_of_mem_getLast? hlast
      refine ⟨?_, ?_⟩
      · simpa [applyOp, InMemoryDB.rollback, hlast] using hhist _ hmem
      · intro e1 he1
        simp only [applyOp, InMemoryDB.rollback, hlast] at he1
        exact hhist e1 ((List.dropLast_sublist _).subset he1)
  | commit =>
    by_cases hemp : s._history.isEmpty
    · simpa [applyOp, InMemoryDB.commit, hemp] using ⟨hcur, hhist⟩
    · refine ⟨?_, ?_⟩
      · simpa [applyOp, InMemoryDB.commit, hemp] using hcur
      · intro e he
        simp [applyOp, InMemoryDB.commit, hemp] at he

theorem consistent_foldl (ops : List Op) (s : InMemoryDB) (hs : Consistent s)
    (h : ∀ op ∈ ops, op.valid) : Consistent (ops.foldl applyOp s) := by
  induction ops generalizing s with
  | nil => exact hs
  | cons op rest ih =>
    exact ih _ (consistent_applyOp hs (h op (List.mem_cons_self op rest)))
      (fun o ho => h o (List.mem_cons_of_mem op ho))

theorem consistent_run (ops : List Op) (h : ∀ op ∈ ops, op.valid) : Consistent (run ops) := by
  refine consistent_foldl ops InMemoryDB.fresh ⟨⟨?_, ?_, ?_⟩, ?_⟩ h <;>
    simp [InMemoryDB.fresh, countsGet, dictGet, cntVal]

/-- With unique keys, the number of keys `k` whose lookup yields `v` equals
the number of mapping entries holding `v`. -/
theorem countKeys_eq_cntVal (db : List (String × String))
    (hnd : (db.map Prod.fst).Nodup) (v : String) :
    (db.map Prod.fst).countP (fun k => dictGet db k == some v) = cntVal db v := by
  induction db with
  | nil => simp [cntVal]
  | cons p rest ih =>
    obtain ⟨k2, v2⟩ := p
    simp only [List.map_cons, List.nodup_cons] at hnd
    obtain ⟨hk2, hndr⟩ := hnd
    have hhead : dictGet ((k2, v2) :: rest) k2 = some v2 := by simp [dictGet]
    have htail : ∀ x ∈ rest.map Prod.fst,
        (dictGet ((k2, v2) :: rest) x == some v) = (dictGet rest x == some v) := by
      intro x hx
      have hne : ¬ k2 = x := fun h => hk2 (h ▸ hx)
      simp [dictGet, hne]
    calc (List.map Prod.fst ((k2, v2) :: rest)).countP (fun k => dictGet ((k2, v2) :: rest) k == some v)
        = (rest.map Prod.fst).countP (fun k => dictGet ((k2, v2) :: rest) k == some v)
            + if dictGet ((k2, v2) :: rest) k2 == some v then 1 else 0 := by
          simp [List.countP_cons]
      _ = (rest.map Prod.fst).countP (fun k => dictGet rest k == some v)
            + if v2 = v then 1 else 0 := by
          rw [List.countP_congr (fun x hx => by rw [htail x hx]), hhead]
          simp
      _ = cntVal ((k2, v2) :: rest) v := by
          rw [ih hndr]
          unfold cntVal
          simp [List.countP_cons]

/-! ### A precondition-free invariant: counts are exact for non-empty values
and only ever over-approximate for the empty string (the `if old_value:`
truthiness test skips the decrement exactly when the old value is `""`). -/

def entryBounded (db : List (String × String)) (c : List (String × Int)) : Prop :=
  (db.map Prod.fst).Nodup
  ∧ (∀ v, v ≠ "" → countsGet c v = (cntVal db v : Int))
  ∧ (cntVal db "" : Int) ≤ countsGet c ""

def Bounded (s : InMemoryDB) : Prop :=
  entryBounded s._db s._counts ∧ ∀ e ∈ s._history, entryBounded e.1 e.2

theorem entryBounded_set {db : List (String × String)} {c : List (String × Int)}
    (hb : entryBounded db c) (k v : String) :
    entryBounded (dictSet db k v)
      (countsAdd (match dictGet db k with
        | some ov => if ov = "" then c else countsAdd c ov (-1)
        | none => c) v 1) := by
  obtain ⟨hnd, hex, hle⟩ := hb
  have hndSet : ((dictSet db k v).map Prod.fst).Nodup := by
    cases hget : dictGet db k with
    | none =>
      rw [dictSet_eq_append v hget, List.map_append]
      simp only [List.nodup_append, List.map_cons, List.map_nil]
      refine ⟨hnd, List.nodup_singleton k, fun a ha hb1 => ?_⟩
      simp only [List.mem_singleton] at hb1
      exact ((dictGet_eq_none_iff db k).mp hget) (hb1 ▸ ha)
    | some ov => rw [keys_dictSet_of_mem v hget]; exact hnd
  cases hget : dictGet db k with
  | none =>
    refine ⟨hndSet, ?_, ?_⟩
    · intro w hw
      rw [countsGet_countsAdd, hex w hw, cntVal_dictSet_none v hget w]
      by_cases h : v = w <;> simp [h]
    · rw [countsGet_countsAdd]
      have h5 := cntVal_dictSet_none v hget ""
      by_cases h : v = "" <;> simp [h] at h5 ⊢ <;> omega
  | some ov =>
    by_cases hove : ov = ""
    · subst hove
      show entryBounded (dictSet db k v) (countsAdd (if ("" : String) = "" then c
        else countsAdd c "" (-1)) v 1)
      rw [if_pos rfl]
      have h5 := cntVal_dictSet_some v hget
      refine ⟨hndSet, ?_, ?_⟩
      · intro w hw
        rw [countsGet_countsAdd, hex w hw]
        have h6 := h5 w
        have h7 : ¬ ("" : String) = w := fun h => hw h.symm
        by_cases h : v = w <;> simp [h, h7] at h6 ⊢ <;> omega
      · rw [countsGet_countsAdd]
        have h6 := h5 ""
        by_cases h : v = "" <;> simp [h] at h6 ⊢ <;> omega
    · show entryBounded (dictSet db k v) (countsAdd (if ov = "" then c
        else countsAdd c ov (-1)) v 1)
      rw [if_neg hove]
      have h5 := cntVal_dictSet_some v hget
      refine ⟨hndSet, ?_, ?_⟩
      · intro w hw
        rw [countsGet_countsAdd, countsGet_countsAdd, hex w hw]
        have h6 := h5 w
        by_cases h : v = w <;> by_cases h8 : ov = w <;> simp [h, h8] at h6 ⊢ <;> omega
      · rw [countsGet_countsAdd, countsGet_countsAdd]
        have h6 := h5 ""
        have h8 : ¬ ov = "" := hove
        by_cases h : v = "" <;> simp [h, h8] at h6 ⊢ <;> omega

theorem entryBounded_unset {db : List (String × String)} {c : List (String × Int)}
    (hb : entryBounded db c) {k ov : String} (hget : dictGet db k = some ov) :
    entryBounded (dictPop db k) (countsAdd c ov (-1)) := by
  obtain ⟨hnd, hex, hle⟩ := hb
  have h5 := cntVal_dictPop hget
  refine ⟨List.Nodup.sublist ((dictPop_sublist db k).map Prod.fst) hnd, ?_, ?_⟩
  · intro w hw
    rw [countsGet_countsAdd, hex w hw]
    have h6 := h5 w
    by_cases h : ov = w <;> simp [h] at h6 ⊢ <;> omega
  · rw [countsGet_countsAdd]
    have h6 := h5 ""
    by_cases h : ov = "" <;> simp [h] at h6 ⊢ <;> omega

theorem bounded_applyOp {s : InMemoryDB} (hs : Bounded s) (op : Op) :
    Bounded (applyOp s op) := by
  obtain ⟨hcur, hhist⟩ := hs
  cases op with
  | set k v =>
    refine ⟨?_, ?_⟩
    · simpa [applyOp, InMemoryDB.set, InMemoryDB.saveState] using entryBounded_set hcur k v
    · intro e he
      simp only [applyOp, InMemoryDB.set, InMemoryDB.saveState, List.mem_append,
        List.mem_singleton] at he
      rcases he with he | he
      · exact hhist e he
      · rw [he]; exact hcur
  | unset k =>
    cases hget : dictGet s._db k with
    | none => simpa [applyOp, InMemoryDB.unset, hget] using ⟨hcur, hhist⟩
    | some ov =>
      refine ⟨?_, ?_⟩
      · simpa [applyOp, InMemoryDB.unset, hget, InMemoryDB.saveState] using
          entryBounded_unset hcur hget
      · intro e he
        simp only [applyOp, InMemoryDB.unset, hget, InMemoryDB.saveState, List.mem_append,
          List.mem_singleton] at he
        rcases he with he | he
        · exact hhist e he
        · rw [he]; exact hcur
  | begin =>
    refine ⟨hcur, ?_⟩
    intro e he
    simp only [applyOp, InMemoryDB.begin, List.mem_append, List.mem_singleton] at he
    rcases he with he | he
    · exact hhist e he
    · rw [he]; exact hcur
  | rollback =>
    cases hlast : s._history.getLast? with
    | none => simpa [applyOp, InMemoryDB.rollback, hlast] using ⟨hcur, hhist⟩
    | some e =>
      obtain ⟨d, c⟩ := e
      have hmem : (d, c) ∈ s._history := List.mem_of_mem_getLast? hlast
      refine ⟨?_, ?_⟩
      · simpa [applyOp, InMemoryDB.rollback, hlast] using hhist _ hmem
      · intro e1 he1
        simp only [applyOp, InMemoryDB.rollback, hlast] at he1
        exact hhist e1 ((List.dropLast_sublist _).subset he1)
  | commit =>
    by_cases hemp : s._history.isEmpty
    · simpa [applyOp, InMemoryDB.commit, hemp] using ⟨hcur, hhist⟩
    · refine ⟨?_, ?_⟩
      · simpa [applyOp, InMemoryDB.commit, hemp] using hcur
      · intro e he
        simp [applyOp, InMemoryDB.commit, hemp] at he

theorem bounded_run (ops : List Op) : Bounded (run ops) := by
  have hfold : ∀ s : InMemoryDB, Bounded s → Bounded (ops.foldl applyOp s) := by
    induction ops with
    | nil => exact fun s hs => hs
    | cons op rest ih => exact fun s hs => ih _ (bounded_applyOp hs op)
  refine hfold InMemoryDB.fresh ⟨⟨?_, ?_, ?_⟩, ?_⟩ <;>
    simp [InMemoryDB.fresh, countsGet, dictGet, cntVal]

/-! ### The command layer: `Command` subclasses and `CommandParser` -/

/-- One variant per `Command` subclass, carrying its validated arguments
(`EndCommand` is `endCmd`, `UnknownCommand` is `unknown`). -/
inductive Command where
  | set (key value : String)
  | get (key : String)
  | unset (key : String)
  | counts (value : String)
  | find (value : String)
  | begin
  | rollback
  | commit
  | endCmd
  | unknown
  deriving DecidableEq

/-- `Command.execute` against a store: the resulting store, the line printed
(if any), and whether the session ends (`EndCommand` raises `SystemExit`;
nothing else touches control flow). `GetCommand` prints the value or `NULL`. -/
def Command.execute (c : Command) (s : InMemoryDB) : InMemoryDB × Option String × Bool :=
  match c with
  | .set k v => (s.set k v, none, false)
  | .get k => (s, some ((s.get k).getD "NULL"), false)
  | .unset k => (s.unset k, none, false)
  | .counts v => (s, some (toString (s.counts v)), false)
  | .find v => (s, some (s.find v), false)
  | .begin => (s.begin, none, false)
  | .rollback => (s.rollback.1, s.rollback.2, false)
  | .commit => (s.commit.1, s.commit.2, false)
  | .endCmd => (s, none, true)
  | .unknown => (s, some "UNKNOWN COMMAND", false)

/-- `line.strip().split()`: split at whitespace runs, dropping empty tokens
(stripping is subsumed). Structural single-pass over the characters with the
current token accumulated in reverse. -/
def tokenizeAux : List Char → List Char → List String
  | [], cur => if cur.isEmpty then [] else [String.mk cur.reverse]
  | ch :: cs, cur =>
    if ch.isWhitespace then
      if cur.isEmpty then tokenizeAux cs [] else String.mk cur.reverse :: tokenizeAux cs []
    else tokenizeAux cs (ch :: cur)

def tokenize (line : String) : List String :=
  tokenizeAux line.toList []

/-- `parts[0].upper()` (the verbs are ASCII, where Python `str.upper` agrees
with per-character ASCII uppercasing). -/
def strUpper (s : String) : String :=
  String.mk (s.toList.map Char.toUpper)

/-- The `command_map` lambdas, keyed by the upper-cased verb, applied to the
token list: the five argument-taking verbs build their command only at the
exact `len(parts)` they check and `UnknownCommand` otherwise; the lambdas for
`BEGIN`/`ROLLBACK`/`COMMIT`/`END` ignore `parts` entirely; any other verb hits
the dict-lookup default, `UnknownCommand`. -/
def commandOfVerb (cmd : String) (parts : List String) : Command :=
  if cmd = "SET" then
    match parts with
    | [_, k, v] => Command.set k v
    | _ => Command.unknown
  else if cmd = "GET" then
    match parts with
    | [_, k] => Command.get k
    | _ => Command.unknown
  else if cmd = "UNSET" then
    match parts with
    | [_, k] => Command.unset k
    | _ => Command.unknown
  else if cmd = "COUNTS" then
    match parts with
    | [_, v] => Command.counts v
    | _ => Command.unknown
  else if cmd = "FIND" then
    match parts with
    | [_, v] => Command.find v
    | _ => Command.unknown
  else if cmd = "BEGIN" then Command.begin
  else if cmd = "ROLLBACK" then Command.rollback
  else if cmd = "COMMIT" then Command.commit
  else if cmd = "END" then Command.endCmd
  else Command.unknown

/-- `CommandParser.parse`: tokenize the line, return `None` for a blank line,
else dispatch on the upper-cased first token. -/
def CommandParser.parse (line : String) : Option Command :=
  match h : tokenize line with
  | [] => none
  | p0 :: _ => some (commandOfVerb (strUpper p0) (tokenize line))

/-! ### Lookup / membership helpers -/

theorem dictGet_of_mem {db : List (String × String)} (hnd : (db.map Prod.fst).Nodup)
    {k v : String} (hmem : (k, v) ∈ db) : dictGet db k = some v := by
  induction db with
  | nil => simp at hmem
  | cons p rest ih =>
    obtain ⟨k2, v2⟩ := p
    simp only [List.map_cons, List.nodup_cons] at hnd
    rcases List.mem_cons.mp hmem with h | h
    · cases h
      simp [dictGet]
    · have hk2 : ¬ k2 = k := fun he => hnd.1 (by
        rw [he]
        exact List.mem_map.mpr ⟨(k, v), h, rfl⟩)
      simp only [dictGet, if_neg hk2]
      exact ih hnd.2 h

theorem dictGet_eq_some_iff {db : List (String × String)}
    (hnd : (db.map Prod.fst).Nodup) (k v : String) :
    dictGet db k = some v ↔ (k, v) ∈ db :=
  ⟨dictGet_mem, dictGet_of_mem hnd⟩

theorem mem_filterKeys_iff (db : List (String × String)) (v k : String) :
    k ∈ (db.filter (fun p => p.2 == v)).map Prod.fst ↔ (k, v) ∈ db := by
  simp only [List.mem_map, List.mem_filter, beq_iff_eq]
  constructor
  · rintro ⟨⟨a, b⟩, ⟨hmem, hb⟩, rfl⟩
    exact hb ▸ hmem
  · intro h
    exact ⟨(k, v), ⟨h, rfl⟩, rfl⟩

/-! ### The claims -/

/-- C1: Index consistency invariant — after every sequence of
set/unset/begin/rollback/commit operations from a fresh store, with the
stated precondition that `set` receives non-empty key and value strings,
the reverse index entry for each value `v` (an absent entry reading as
zero) equals the number of keys whose current mapping is `v`. -/
theorem c1_index_consistency (ops : List Op) (h : ∀ op ∈ ops, op.valid) (v : String) :
    countsGet (run ops)._counts v
      = ((((run ops)._db.map Prod.fst).countP (fun k => (run ops).get k == some v) : Nat) : Int) := by
  obtain ⟨⟨hnd, hne, hcnt⟩, hhist⟩ := consistent_run ops h
  rw [hcnt v]
  norm_cast
  exact (countKeys_eq_cntVal (run ops)._db hnd v).symm

/-- Witness for C1 at a concrete valid operation sequence. -/
theorem c1_index_consistency_witness :
    (∀ op ∈ [Op.begin, Op.set "a" "x", Op.set "b" "x", Op.unset "a", Op.rollback], op.valid)
    ∧ countsGet (run [Op.begin, Op.set "a" "x", Op.set "b" "x", Op.unset "a",
        Op.rollback])._counts "x"
      = ((((run [Op.begin, Op.set "a" "x", Op.set "b" "x", Op.unset "a",
          Op.rollback])._db.map Prod.fst).countP
          (fun k => (run [Op.begin, Op.set "a" "x", Op.set "b" "x", Op.unset "a",
            Op.rollback]).get k == some "x") : Nat) : Int) :=
  ⟨by decide, c1_index_consistency _ (by decide) "x"⟩

/-- C2 as stated is FALSE on the code: after begin; set(a,"1"); begin;
set(a,"2"); rollback, get(a) is "1" as claimed, but a second rollback still
yields "1", not absent, because each `set` also pushed a snapshot. -/
theorem c2_counterexample :
    ¬ ((run [Op.begin, Op.set "a" "1", Op.begin, Op.set "a" "2", Op.rollback]).get "a"
          = some "1"
      ∧ (run [Op.begin, Op.set "a" "1", Op.begin, Op.set "a" "2", Op.rollback,
          Op.rollback]).get "a" = none) := by
  decide

/-- C2 amended: the first rollback yields get(a) == "1"; a second rollback
still yields "1" (it pops the snapshot taken at the second begin); get(a)
becomes absent only after a third rollback (popping the snapshot taken by
set(a,"1")), since `set` pushes undo snapshots too. -/
theorem c2_amended_rollback_levels :
    (run [Op.begin, Op.set "a" "1", Op.begin, Op.set "a" "2", Op.rollback]).get "a" = some "1"
  ∧ (run [Op.begin, Op.set "a" "1", Op.begin, Op.set "a" "2", Op.rollback,
      Op.rollback]).get "a" = some "1"
  ∧ (run [Op.begin, Op.set "a" "1", Op.begin, Op.set "a" "2", Op.rollback, Op.rollback,
      Op.rollback]).get "a" = none := by
  decide

/-- C3: commit flattens all open levels — after begin; set(a,"1"); begin;
set(a,"2"); commit, the snapshot stack is empty, a subsequent rollback
reports NO TRANSACTION, and get(a) == "2". -/
theorem c3_commit_flattens :
    (run [Op.begin, Op.set "a" "1", Op.begin, Op.set "a" "2", Op.commit])._history = []
  ∧ (run [Op.begin, Op.set "a" "1", Op.begin, Op.set "a" "2", Op.commit]).rollback.2
      = some "NO TRANSACTION"
  ∧ (run [Op.begin, Op.set "a" "1", Op.begin, Op.set "a" "2", Op.commit]).get "a"
      = some "2" := by
  decide

/-- C4: on a fresh store, rollback() and commit() report NO TRANSACTION and
leave the whole state (mapping, refcount and stack) unchanged. -/
theorem c4_no_transaction_diagnostics :
    InMemoryDB.fresh.rollback = (InMemoryDB.fresh, some "NO TRANSACTION")
  ∧ InMemoryDB.fresh.commit = (InMemoryDB.fresh, some "NO TRANSACTION") := by
  decide

/-- C5: find(value) returns exactly the keys currently mapping to value,
sorted lexicographically ascending, with the distinct marker "NULL" when no
key maps to value; concretely, after set(a,"x"); set(c,"x"); set(b,"x") on a
fresh store, find("x") returns the keys in order a, b, c. -/
theorem c5_find_sorted (ops : List Op) (v : String) :
    (∃ L : List String,
        L.Sorted (fun a b => a ≤ b)
      ∧ (∀ k, k ∈ L ↔ (run ops).get k = some v)
      ∧ (run ops).find v = (if L.isEmpty then "NULL" else " ".intercalate L))
  ∧ (run [Op.set "a" "x", Op.set "c" "x", Op.set "b" "x"]).find "x" = "a b c" := by
  constructor
  · refine ⟨(((run ops)._db.filter (fun p => p.2 == v)).map Prod.fst).mergeSort
      (fun a b => a ≤ b), List.sorted_mergeSort' _, ?_, ?_⟩
    · intro k
      rw [(List.mergeSort_perm _ _).mem_iff, mem_filterKeys_iff]
      rw [InMemoryDB.get]
      exact (dictGet_eq_some_iff (bounded_run ops).1.1 k v).symm
    · simp only [InMemoryDB.find]
      generalize (((run ops)._db.filter (fun p => p.2 == v)).map Prod.fst) = K
      rcases K with _ | ⟨k0, ks⟩
      · simp
      · have h2 : ((k0 :: ks).mergeSort (fun a b : String => a ≤ b)) ≠ [] := by
          intro hnil
          have h3 := (List.mergeSort_perm (k0 :: ks)
            (fun a b : String => decide (a ≤ b))).length_eq
          rw [hnil] at h3
          simp at h3
        simp only [List.isEmpty_iff, List.cons_ne_self]
        rw [if_neg (by simp), if_neg h2]
  · have hkeys : (((run [Op.set "a" "x", Op.set "c" "x", Op.set "b" "x"])._db.filter
        (fun p => p.2 == "x")).map Prod.fst) = ["a", "c", "b"] := by decide
    have hp : List.Pairwise (fun a b : String => a.toList ≤ b.toList) ["a", "b", "c"] := by
      decide
    have hsort : ((["a", "c", "b"] : List String).mergeSort fun a b => a ≤ b)
        = ["a", "b", "c"] := by
      exact List.eq_of_perm_of_sorted ((List.mergeSort_perm _ _).trans (by decide))
        (List.sorted_mergeSort' _) (hp.imp (fun hab => String.le_iff_toList_le.mpr hab))
    simp only [InMemoryDB.find, hkeys, hsort]
    rfl

/-- C6: counts(value) returns a non-negative integer equal to the reverse
index entry refcount[value] (an absent entry reading as zero), and is 0 for
a never-used value on a fresh store. Holds after every operation sequence,
with no precondition on the arguments. -/
theorem c6_counts_nonneg (ops : List Op) (v : String) :
    0 ≤ (run ops).counts v
  ∧ (run ops).counts v = countsGet (run ops)._counts v
  ∧ InMemoryDB.fresh.counts v = 0 := by
  refine ⟨?_, rfl, rfl⟩
  obtain ⟨⟨hnd, hex, hle⟩, hh⟩ := bounded_run ops
  show 0 ≤ countsGet (run ops)._counts v
  by_cases hv : v = ""
  · subst hv
    calc (0 : Int) ≤ (cntVal (run ops)._db "" : Int) := Int.natCast_nonneg _
    _ ≤ countsGet (run ops)._counts "" := hle
  · rw [hex v hv]
    exact Int.natCast_nonneg _

/-- C7: unset on an absent key is a complete no-op — it pushes no snapshot
and changes nothing — so begin; unset(missing); rollback restores exactly
the state from before the begin. -/
theorem c7_unset_absent_noop (s : InMemoryDB) (k : String) (h : s.get k = none) :
    s.unset k = s ∧ (s.begin.unset k).rollback = (s, none) := by
  have h0 : dictGet s._db k = none := h
  have h1 : s.unset k = s := by
    simp [InMemoryDB.unset, h0]
  refine ⟨h1, ?_⟩
  have h2 : s.begin.unset k = s.begin := by
    simp [InMemoryDB.unset, InMemoryDB.begin, h0]
  rw [h2]
  simp [InMemoryDB.rollback, InMemoryDB.begin, List.getLast?_concat, List.dropLast_concat]

/-- Witness for C7 on a fresh store and the key "a". -/
theorem c7_unset_absent_noop_witness :
    InMemoryDB.fresh.get "a" = none
  ∧ InMemoryDB.fresh.unset "a" = InMemoryDB.fresh
  ∧ (InMemoryDB.fresh.begin.unset "a").rollback = (InMemoryDB.fresh, none) :=
  ⟨rfl, (c7_unset_absent_noop InMemoryDB.fresh "a" rfl).1,
    (c7_unset_absent_noop InMemoryDB.fresh "a" rfl).2⟩

/-- C9: every set(), and every unset() that actually removes a key, pushes a
snapshot even when no begin() has been issued; on a fresh store, set followed
by rollback does not report NO TRANSACTION but restores the pre-set (fresh)
state. -/
theorem c9_mutations_push_history (s : InMemoryDB) (k v : String) :
    (s.set k v)._history = s._history ++ [(s._db, s._counts)]
  ∧ (s.get k ≠ none → (s.unset k)._history = s._history ++ [(s._db, s._counts)])
  ∧ (InMemoryDB.fresh.set k v).rollback = (InMemoryDB.fresh, none) := by
  refine ⟨rfl, ?_, ?_⟩
  · intro h
    rcases hget : dictGet s._db k with _ | ov
    · exact absurd hget h
    · simp [InMemoryDB.unset, hget, InMemoryDB.saveState]
  · simp [InMemoryDB.set, InMemoryDB.saveState, InMemoryDB.fresh, InMemoryDB.rollback,
      dictGet]

/-- Witness for C9: the second set overwrites an existing key, and unset of a
present key records the snapshot. -/
theorem c9_mutations_push_history_witness :
    (InMemoryDB.fresh.set "a" "x").get "a" ≠ none
  ∧ ((InMemoryDB.fresh.set "a" "x").unset "a")._history
      = (InMemoryDB.fresh.set "a" "x")._history
        ++ [((InMemoryDB.fresh.set "a" "x")._db, (InMemoryDB.fresh.set "a" "x")._counts)] :=
  ⟨by decide, (c9_mutations_push_history (InMemoryDB.fresh.set "a" "x") "a" "y").2.1
    (by decide)⟩

/-- C10: the overwrite check in set() tests the old value's truthiness, not
its presence — the decrement of refcount[old] happens iff the key was present
with a NON-EMPTY old value; when the key currently maps to "", set performs
no decrement, so refcount[""] stays inflated, and concretely after
set(k,""); set(k,"x") the index records count 1 for "" while no key maps
to "" — violating index consistency. -/
theorem c10_empty_string_truthiness (s : InMemoryDB) (k v : String) :
    (s.get k = some "" →
       ∀ w, countsGet (s.set k v)._counts w
          = countsGet s._counts w + (if v = w then 1 else 0))
  ∧ (s.get k = none →
       ∀ w, countsGet (s.set k v)._counts w
          = countsGet s._counts w + (if v = w then 1 else 0))
  ∧ (∀ ov, s.get k = some ov → ov ≠ "" →
       ∀ w, countsGet (s.set k v)._counts w
          = countsGet s._counts w + (if ov = w then -1 else 0) + (if v = w then 1 else 0))
  ∧ (countsGet (run [Op.set "k" "", Op.set "k" "x"])._counts "" = 1
      ∧ cntVal (run [Op.set "k" "", Op.set "k" "x"])._db "" = 0) := by
  refine ⟨?_, ?_, ?_, by decide⟩
  · intro h w
    rw [InMemoryDB.get] at h
    show countsGet (countsAdd (match dictGet s._db k with
      | some old_value =>
          if old_value = "" then s._counts else countsAdd s._counts old_value (-1)
      | none => s._counts) v 1) w = countsGet s._counts w + (if v = w then 1 else 0)
    rw [h]
    simp [countsGet_countsAdd]
  · intro h w
    rw [InMemoryDB.get] at h
    show countsGet (countsAdd (match dictGet s._db k with
      | some old_value =>
          if old_value = "" then s._counts else countsAdd s._counts old_value (-1)
      | none => s._counts) v 1) w = countsGet s._counts w + (if v = w then 1 else 0)
    rw [h]
    simp [countsGet_countsAdd]
  · intro ov h hne w
    rw [InMemoryDB.get] at h
    show countsGet (countsAdd (match dictGet s._db k with
      | some old_value =>
          if old_value = "" then s._counts else countsAdd s._counts old_value (-1)
      | none => s._counts) v 1) w
      = countsGet s._counts w + (if ov = w then -1 else 0) + (if v = w then 1 else 0)
    rw [h]
    show countsGet (countsAdd (if ov = "" then s._counts
      else countsAdd s._counts ov (-1)) v 1) w
      = countsGet s._counts w + (if ov = w then -1 else 0) + (if v = w then 1 else 0)
    rw [if_neg hne, countsGet_countsAdd, countsGet_countsAdd]

/-- Witness for C10: overwriting a key that maps to "" leaves refcount[""]
untouched (only the new value "x" is counted). -/
theorem c10_empty_string_truthiness_witness :
    (InMemoryDB.fresh.set "k" "").get "k" = some ""
  ∧ countsGet ((InMemoryDB.fresh.set "k" "").set "k" "x")._counts ""
      = countsGet (InMemoryDB.fresh.set "k" "")._counts ""
        + (if ("x" : String) = "" then 1 else 0) :=
  ⟨by decide, (c10_empty_string_truthiness (InMemoryDB.fresh.set "k" "") "k" "x").1
    (by decide) ""⟩

/-- C8 as stated is FALSE on the code: BEGIN invoked with an extra argument
(wrong argument count for a recognized verb) is still parsed as the
store-invoking begin command, not as the unknown-command response. -/
theorem c8_counterexample :
    CommandParser.parse "BEGIN extra" = some Command.begin
  ∧ Command.begin ≠ Command.unknown
  ∧ Command.begin.execute InMemoryDB.fresh
      = (InMemoryDB.fresh.begin, none, false) := by
  decide

/-- C8 amended: the arity check applies only to the five argument-taking
verbs — SET with token count ≠ 3, or GET/UNSET/COUNTS/FIND with token count
≠ 2, and any unrecognized verb, produce UnknownCommand, whose execution
leaves the store untouched and prints "UNKNOWN COMMAND"; the zero-argument
verbs BEGIN/ROLLBACK/COMMIT/END ignore extra tokens and still build their
store-invoking command. -/
theorem c8_amended_arity (cmd : String) (parts : List String) (s : InMemoryDB) :
    (cmd = "SET" → parts.length ≠ 3 → commandOfVerb cmd parts = Command.unknown)
  ∧ (cmd = "GET" → parts.length ≠ 2 → commandOfVerb cmd parts = Command.unknown)
  ∧ (cmd = "UNSET" → parts.length ≠ 2 → commandOfVerb cmd parts = Command.unknown)
  ∧ (cmd = "COUNTS" → parts.length ≠ 2 → commandOfVerb cmd parts = Command.unknown)
  ∧ (cmd = "FIND" → parts.length ≠ 2 → commandOfVerb cmd parts = Command.unknown)
  ∧ (cmd ∉ ["SET", "GET", "UNSET", "COUNTS", "FIND", "BEGIN", "ROLLBACK", "COMMIT", "END"] →
      commandOfVerb cmd parts = Command.unknown)
  ∧ (cmd = "BEGIN" → commandOfVerb cmd parts = Command.begin)
  ∧ (cmd = "ROLLBACK" → commandOfVerb cmd parts = Command.rollback)
  ∧ (cmd = "COMMIT" → commandOfVerb cmd parts = Command.commit)
  ∧ (cmd = "END" → commandOfVerb cmd parts = Command.endCmd)
  ∧ Command.unknown.execute s = (s, some "UNKNOWN COMMAND", false) := by
  refine ⟨?_, ?_, ?_, ?_, ?_, ?_, ?_, ?_, ?_, ?_, rfl⟩
  · rintro rfl hlen
    rcases parts with _ | ⟨a, _ | ⟨b, _ | ⟨c, _ | ⟨d, t⟩⟩⟩⟩ <;>
      simp [commandOfVerb] at hlen ⊢
  · rintro rfl hlen
    rcases parts with _ | ⟨a, _ | ⟨b, t⟩⟩ <;> simp [commandOfVerb] at hlen ⊢ <;>
      cases t <;> simp at hlen ⊢
  · rintro rfl hlen
    rcases parts with _ | ⟨a, _ | ⟨b, t⟩⟩ <;> simp [commandOfVerb] at hlen ⊢ <;>
      cases t <;> simp at hlen ⊢
  · rintro rfl hlen
    rcases parts with _ | ⟨a, _ | ⟨b, t⟩⟩ <;> simp [commandOfVerb] at hlen ⊢ <;>
      cases t <;> simp at hlen ⊢
  · rintro rfl hlen
    rcases parts with _ | ⟨a, _ | ⟨b, t⟩⟩ <;> simp [commandOfVerb] at hlen ⊢ <;>
      cases t <;> simp at hlen ⊢
  · intro hno
    simp only [List.mem_cons, List.not_mem_nil, or_false, not_or] at hno
    obtain ⟨h1, h2, h3, h4, h5, h6, h7, h8, h9⟩ := hno
    simp [commandOfVerb, h1, h2, h3, h4, h5, h6, h7, h8, h9]
  · rintro rfl
    simp [commandOfVerb]
  · rintro rfl
    simp [commandOfVerb]
  · rintro rfl
    simp [commandOfVerb]
  · rintro rfl
    simp [commandOfVerb]

/-- Witness for C8 (amended): SET with one argument parses to UnknownCommand. -/
theorem c8_amended_arity_witness :
    ("SET" : String) = "SET"
  ∧ (["SET", "a"] : List String).length ≠ 3
  ∧ commandOfVerb "SET" ["SET", "a"] = Command.unknown :=
  ⟨rfl, by decide, (c8_amended_arity "SET" ["SET", "a"] InMemoryDB.fresh).1 rfl (by decide)⟩
